import Mathlib

/-!
Verification development for the `wavepy.grating_interferometry` module.

The module's pipeline (peak index calculation, peak detection by masked
argmax, harmonic range validation, harmonic sub-image cropping, the
single-grating harmonic set, the two-dimensional grating analysis and the
first-harmonic visibility estimator) is embedded shallowly below.

Modelling conventions:
* numpy 2D arrays are `Mat α = List (List α)`; the element type `α` is kept
  generic, with the element-wise numeric collaborators (`mag` for `np.abs`,
  `angleF` for `np.angle`, `isFin` for `np.isfinite`) passed explicitly,
  all mapping into exact rationals.
* the Fourier transform and its inverse are external collaborators per the
  module boundary, passed as functions `fft`, `ifft : Mat α → Mat α`
  (`fft` stands for `fftshift ∘ fft2`, `ifft` for `ifft2 ∘ ifftshift`).
* Python floor division `//` is `Int.fdiv`; Python slice indexing with
  negative-index wrap-around and clipping is `pyIdx`/`pySlice`.
* a raised exception (`ValueError` from the range validator, converted to
  `SystemExit` inside `extract_harmonic`) is the `.error` case of `Except`.
-/

set_option autoImplicit false

abbrev Mat (α : Type) : Type := List (List α)

variable {α β γ : Type}

/-- Element lookup `m[i][j]` with a default for out-of-range access
(in-range in every use below). -/
def mget [Inhabited α] (m : Mat α) (i j : ℕ) : α :=
  (m.getD i []).getD j default

/-- Number of rows of a matrix (`shape[0]`). -/
def nrows (m : Mat α) : ℕ := m.length

/-- Number of columns of a matrix (`shape[1]`), read off the first row. -/
def ncols (m : Mat α) : ℕ := (m.headD []).length

/-- Rectangularity: the matrix has exactly `r` rows, each of length `c`. -/
def IsRect (m : Mat α) (r c : ℕ) : Prop :=
  m.length = r ∧ ∀ row ∈ m, row.length = c

/-- Python slice-endpoint normalization: a negative index counts from the
end, and the result is clipped into `[0, n]`. -/
def pyIdx (n : ℕ) (i : ℤ) : ℕ :=
  min (if i < 0 then (n : ℤ) + i else i).toNat n

/-- Python slice `xs[a:b]` (step 1). -/
def pySlice (xs : List β) (a b : ℤ) : List β :=
  (xs.take (pyIdx xs.length b)).drop (pyIdx xs.length a)

/-- Row-major enumeration of all coordinates of an `nR × nC` grid. -/
def coordsRM (nR nC : ℕ) : List (ℕ × ℕ) :=
  (List.range nR).flatMap (fun i => (List.range nC).map (fun j => (i, j)))

/-- First maximiser of `f` in list order: the element returned by
`np.where(v == np.max(v))[...][0]`, i.e. ties are broken by the first
occurrence in scan order. -/
def firstArgmax (f : β → ℚ) : List β → Option β
  | [] => none
  | x :: xs =>
    match firstArgmax f xs with
    | none => some x
    | some y => if f x < f y then some y else some x

/-- The 1D-grating default: a non-positive period is replaced by the image
extent along that axis (`if periodVert <= 0 ... periodVert = nRows`). -/
def resolvePeriod (p : ℤ) (n : ℕ) : ℤ :=
  if p ≤ 0 then (n : ℤ) else p

/-- Source `_idxPeak_ij`: theoretical peak index of harmonic `(harV, harH)`
in the fft-shifted frequency-domain image. -/
def idxPeak_ij (harV harH nRows nColumns periodVert periodHor : ℤ) : ℤ × ℤ :=
  (nRows.fdiv 2 + harV * periodVert, nColumns.fdiv 2 + harH * periodHor)

/-- Source `_idxPeak_ij_exp`: detected peak. Builds the 0/1 mask over the
square search window (assigned through Python slices), multiplies the
magnitude image by it, and takes the first row-major argmax, exactly as
`np.where(intensity*mask == np.max(intensity*mask))`. -/
def idxPeak_ij_exp [Inhabited α] (mag : α → ℚ) (imgFFT : Mat α)
    (harV harH periodVert periodHor searchRegion : ℤ) : ℕ × ℕ :=
  let nRows := nrows imgFFT
  let nColumns := ncols imgFFT
  let pk := idxPeak_ij harV harH nRows nColumns periodVert periodHor
  let rLo := pyIdx nRows (pk.1 - searchRegion)
  let rHi := pyIdx nRows (pk.1 + searchRegion)
  let cLo := pyIdx nColumns (pk.2 - searchRegion)
  let cHi := pyIdx nColumns (pk.2 + searchRegion)
  let masked : ℕ × ℕ → ℚ := fun c =>
    mag (mget imgFFT c.1 c.2) *
      (if rLo ≤ c.1 ∧ c.1 < rHi ∧ cLo ≤ c.2 ∧ c.2 < cHi then 1 else 0)
  (firstArgmax masked (coordsRM nRows nColumns)).getD (0, 0)

/-- Source `_check_harmonic_inside_image`: `true` means the `ValueError` is
raised. Both axes are tested with the exact comparisons of the source
(`(harV + .5)*periodVert > nRows / 2`, and likewise horizontally). -/
def check_harmonic_inside_image (harV harH : ℤ) (nRows nColumns : ℕ)
    (periodVert periodHor : ℤ) : Bool :=
  decide (((harV : ℚ) + 1/2) * (periodVert : ℚ) > (nRows : ℚ) / 2) ||
  decide (((harH : ℚ) + 1/2) * (periodHor : ℚ) > (nColumns : ℚ) / 2)

/-- Source `_error_harmonic_peak`: signed deviation (detected − theoretical)
per axis. -/
def error_harmonic_peak [Inhabited α] (mag : α → ℚ) (imgFFT : Mat α)
    (harV harH periodVert periodHor searchRegion : ℤ) : ℤ × ℤ :=
  let nRows := nrows imgFFT
  let nColumns := ncols imgFFT
  let pk := idxPeak_ij harV harH nRows nColumns periodVert periodHor
  let pkExp := idxPeak_ij_exp mag imgFFT harV harH periodVert periodHor searchRegion
  ((pkExp.1 : ℤ) - pk.1, (pkExp.2 : ℤ) - pk.2)

/-- Source `extract_harmonic`: resolve 1D-grating defaults, run the range
validator (failure is the hard `SystemExit` abort, modelled as `.error`),
obtain the frequency-domain image, compute the diagnostic deviation, and
crop the rectangle centered at the theoretical peak through Python slices. -/
def extract_harmonic [Inhabited α] (mag : α → ℚ) (fft : Mat α → Mat α)
    (img : Mat α) (periodVert periodHor harV harH searchRegion : ℤ)
    (isFFT : Bool) : Except Unit (Mat α) :=
  let nRows := nrows img
  let nColumns := ncols img
  let pV := resolvePeriod periodVert nRows
  let pH := resolvePeriod periodHor nColumns
  if check_harmonic_inside_image harV harH nRows nColumns pV pH then
    .error ()
  else
    let imgFFT := if isFFT then img else fft img
    let pk := idxPeak_ij harV harH nRows nColumns pV pH
    let _diag := error_harmonic_peak mag imgFFT harV harH pV pH searchRegion
    .ok ((pySlice imgFFT (pk.1 - pV.fdiv 2) (pk.1 + pV.fdiv 2)).map
      (fun row => pySlice row (pk.2 - pH.fdiv 2) (pk.2 + pH.fdiv 2)))

/-- Source `exp_harm_period`: resolved periods plus the detected-peak
deviation; the range-validator `ValueError` propagates. -/
def exp_harm_period [Inhabited α] (mag : α → ℚ)
    (fft : Mat α → Mat α) (img : Mat α)
    (periodVert periodHor harV harH searchRegion : ℤ) (isFFT : Bool) :
    Except Unit (ℤ × ℤ) :=
  let nRows := nrows img
  let nColumns := ncols img
  let pV := resolvePeriod periodVert nRows
  let pH := resolvePeriod periodHor nColumns
  if check_harmonic_inside_image harV harH nRows nColumns pV pH then
    .error ()
  else
    let imgFFT := if isFFT then img else fft img
    let d := error_harmonic_peak mag imgFFT harV harH pV pH searchRegion
    .ok (pV + d.1, pH + d.2)

def matMap (f : α → β) (m : Mat α) : Mat β := m.map (fun row => row.map f)

def matZipWith (f : α → β → γ) (a : Mat α) (b : Mat β) : Mat γ :=
  List.zipWith (List.zipWith f) a b

def matConst (r c : ℕ) (x : α) : Mat α :=
  List.replicate r (List.replicate c x)

/-- `np.all(p(m))` for an element-wise predicate (true on an empty array). -/
def matAll (p : α → Bool) (m : Mat α) : Bool :=
  m.all (fun row => row.all p)

/-- Source `single_grating_harmonic_images`: one forward transform, three
extractions (00, 01, 10) on the transformed image, then the inverse
transform — unconditionally for 00, and for 01/10 only when every value of
the crop is finite, otherwise the raw crop is passed through. -/
def single_grating_harmonic_images [Inhabited α] (mag : α → ℚ)
    (isFin : α → Bool) (fft ifft : Mat α → Mat α) (img : Mat α)
    (periodVert periodHor searchRegion : ℤ) :
    Except Unit (Mat α × Mat α × Mat α) :=
  let imgFFT := fft img
  match extract_harmonic mag fft imgFFT periodVert periodHor 0 0 searchRegion true,
      extract_harmonic mag fft imgFFT periodVert periodHor 0 1 searchRegion true,
      extract_harmonic mag fft imgFFT periodVert periodHor 1 0 searchRegion true with
  | .ok c00, .ok c01, .ok c10 =>
    .ok (ifft c00,
      if matAll isFin c01 then ifft c01 else c01,
      if matAll isFin c10 then ifft c10 else c10)
  | _, _, _ => .error ()

/-- The seven maps returned by the two-dimensional grating analysis, in the
source's return order. -/
structure AnalysisResult where
  int00 : Mat ℚ
  int01 : Mat ℚ
  int10 : Mat ℚ
  darkField01 : Mat ℚ
  darkField10 : Mat ℚ
  arg01 : Mat ℚ
  arg10 : Mat ℚ

/-- Source `single_2Dgrating_analyses`: harmonic sets of the sample and of
the (optional, else synthesized all-ones `np.exp(np.zeros(shape))`)
reference, then intensity ratios, dark-field ratios and differential phase,
with unwrapping applied when `unwrapFlag == 1`. The nested extraction uses
the source's default `searchRegion=10`. -/
def single_2Dgrating_analyses [Inhabited α] [One α] (mag angleF : α → ℚ)
    (isFin : α → Bool) (unwrap : Mat ℚ → Mat ℚ) (fft ifft : Mat α → Mat α)
    (img : Mat α) (img_ref : Option (Mat α)) (periodVert periodHor : ℤ)
    (unwrapFlag : ℤ) : Except Unit AnalysisResult :=
  match single_grating_harmonic_images mag isFin fft ifft img periodVert periodHor 10 with
  | .error e => .error e
  | .ok (h00, h01, h10) =>
    match (match img_ref with
      | some r =>
        single_grating_harmonic_images mag isFin fft ifft r periodVert periodHor 10
      | none =>
        let ones := matConst (nrows h00) (ncols h00) (1 : α)
        .ok (ones, ones, ones)) with
    | .error e => .error e
    | .ok (r00, r01, r10) =>
      let int00 := matZipWith (fun a b => mag a / mag b) h00 r00
      let int01 := matZipWith (fun a b => mag a / mag b) h01 r01
      let int10 := matZipWith (fun a b => mag a / mag b) h10 r10
      let darkField01 := matZipWith (fun a b => a / b) int01 int00
      let darkField10 := matZipWith (fun a b => a / b) int10 int00
      let arg01 := matZipWith (fun a b => angleF a - angleF b) h01 r01
      let arg10 := matZipWith (fun a b => angleF a - angleF b) h10 r10
      let arg01u := if unwrapFlag = 1 then unwrap arg01 else arg01
      let arg10u := if unwrapFlag = 1 then unwrap arg10 else arg10
      .ok ⟨int00, int01, int10, darkField01, darkField10, arg01u, arg10u⟩

/-- Source `visib_1st_harmonics`: forward transform, three detected peaks
(00, 10, 01), direct magnitude reads at the detected locations, and the
pair of visibility ratios. Note: no 1D-grating period resolution here. -/
def visib_1st_harmonics [Inhabited α] (mag : α → ℚ) (fft : Mat α → Mat α)
    (img : Mat α) (periodVert periodHor searchRegion : ℤ) : ℚ × ℚ :=
  let imgFFT := fft img
  let e00 := idxPeak_ij_exp mag imgFFT 0 0 periodVert periodHor searchRegion
  let e10 := idxPeak_ij_exp mag imgFFT 1 0 periodVert periodHor searchRegion
  let e01 := idxPeak_ij_exp mag imgFFT 0 1 periodVert periodHor searchRegion
  let peak00 := mag (mget imgFFT e00.1 e00.2)
  let peak10 := mag (mget imgFFT e10.1 e10.2)
  let peak01 := mag (mget imgFFT e01.1 e01.2)
  (2 * peak10 / peak00, 2 * peak01 / peak00)

/-- Modelled from the spec (4.2 Peak Locator), for the refinement claim on
the detected peak: the pixel of maximum magnitude among the pixels of the
square window of half-width `searchRegion` centered at the theoretical peak
location, ties broken by the first occurrence in row-major scan order. -/
def peakLocatorSpec [Inhabited α] (mag : α → ℚ) (imgFFT : Mat α)
    (harV harH periodVert periodHor searchRegion : ℤ) : ℕ × ℕ :=
  let nRows := nrows imgFFT
  let nColumns := ncols imgFFT
  let pk := idxPeak_ij harV harH nRows nColumns periodVert periodHor
  let window := (coordsRM nRows nColumns).filter (fun c =>
    decide (pk.1 - searchRegion ≤ (c.1 : ℤ) ∧ (c.1 : ℤ) < pk.1 + searchRegion ∧
      pk.2 - searchRegion ≤ (c.2 : ℤ) ∧ (c.2 : ℤ) < pk.2 + searchRegion))
  (firstArgmax (fun c => mag (mget imgFFT c.1 c.2)) window).getD (0, 0)

/- Concrete instances used by counterexamples and witnesses. -/

/-- `np.abs` on a real-valued pixel. -/
def magQ : ℚ → ℚ := fun q => |q|

/-- All-zero `r × c` image. -/
def zerosM (r c : ℕ) : Mat ℚ := matConst r c 0

/-- A 4×4 frequency-domain image whose only nonzero pixel (value 4) sits at
the shifted DC location (2,2). This is the exact orthonormal shifted FFT of
a constant image of value 1 on a 4×4 grid. -/
def peakMat4 : Mat ℚ :=
  [[0, 0, 0, 0], [0, 0, 0, 0], [0, 0, 4, 0], [0, 0, 0, 0]]

/-- Transform collaborator producing `peakMat4`. -/
def fftPeak4 : Mat ℚ → Mat ℚ := fun _ => peakMat4

/-- A 6×6 frequency-domain image with a degenerate marker value 99 at
(2,4), inside the crop of harmonic (0,1) for periods (2,2). -/
def degMat6 : Mat ℚ :=
  [[0, 0, 0, 0, 0, 0], [0, 0, 0, 0, 0, 0], [0, 0, 0, 0, 99, 0],
   [0, 0, 0, 0, 0, 0], [0, 0, 0, 0, 0, 0], [0, 0, 0, 0, 0, 0]]

/-- Transform collaborator producing `degMat6`. -/
def fftDeg6 : Mat ℚ → Mat ℚ := fun _ => degMat6

/-- Finiteness collaborator for which the marker value 99 is non-finite. -/
def isFin99 : ℚ → Bool := fun q => decide (q ≠ 99)

/-- A concrete (injective, shape-preserving) inverse-transform collaborator. -/
def incMat : Mat ℚ → Mat ℚ := matMap (fun q => q + 1)

/- Helper lemmas. -/

theorem pyIdx_of_bounds (n : ℕ) (i : ℤ) (h0 : 0 ≤ i) (hn : i ≤ n) :
    pyIdx n i = i.toNat := by
  unfold pyIdx
  rw [Nat.min_def]
  split <;> split <;> omega

theorem pyIdx_le (n : ℕ) (i : ℤ) : pyIdx n i ≤ n := by
  unfold pyIdx
  rw [Nat.min_def]
  split <;> split <;> omega

theorem pySlice_eq_drop_take {β : Type} (xs : List β) (a b : ℤ) (h0 : 0 ≤ a)
    (hab : a ≤ b) (hb : b ≤ xs.length) :
    pySlice xs a b = (xs.drop a.toNat).take (b - a).toNat := by
  unfold pySlice
  rw [pyIdx_of_bounds _ _ (by omega) hb, pyIdx_of_bounds _ _ h0 (by omega)]
  rw [List.drop_take]
  congr 1
  omega

theorem pySlice_length {β : Type} (xs : List β) (a b : ℤ) :
    (pySlice xs a b).length = pyIdx xs.length b - pyIdx xs.length a := by
  unfold pySlice
  rw [List.length_drop, List.length_take]
  have h := pyIdx_le xs.length b
  omega

theorem pySlice_subset {β : Type} (xs : List β) (a b : ℤ) : pySlice xs a b ⊆ xs :=
  fun _ h => List.take_subset _ _ (List.drop_subset _ _ h)

theorem resolvePeriod_of_pos (p : ℤ) (n : ℕ) (h : 0 < p) : resolvePeriod p n = p :=
  if_neg (by omega)

theorem resolvePeriod_of_nonpos (p : ℤ) (n : ℕ) (h : p ≤ 0) : resolvePeriod p n = n :=
  if_pos h

theorem resolvePeriod_self_coe (n : ℕ) : resolvePeriod (n : ℤ) n = (n : ℤ) := by
  unfold resolvePeriod
  split <;> rfl

/-- The source's per-axis float comparison, exactly, as an integer test. -/
theorem half_ineq_iff (h p : ℤ) (n : ℕ) :
    ((h : ℚ) + 1/2) * (p : ℚ) ≤ (n : ℚ) / 2 ↔ (2 * h + 1) * p ≤ (n : ℤ) := by
  have key : ((h : ℚ) + 1/2) * (p : ℚ) ≤ (n : ℚ) / 2 ↔
      (((2 * h + 1) * p : ℤ) : ℚ) ≤ ((n : ℤ) : ℚ) := by
    push_cast
    constructor <;> intro hq <;> linarith
  rw [key, Int.cast_le]

theorem check_eq_false_iff (harV harH : ℤ) (nRows nColumns : ℕ) (pV pH : ℤ) :
    check_harmonic_inside_image harV harH nRows nColumns pV pH = false ↔
      (2 * harV + 1) * pV ≤ (nRows : ℤ) ∧ (2 * harH + 1) * pH ≤ (nColumns : ℤ) := by
  simp only [check_harmonic_inside_image, Bool.or_eq_false_iff, decide_eq_false_iff_not,
    not_lt, half_ineq_iff]

/-- In-bounds property of the theoretical crop interval on one axis. -/
theorem crop_bounds (nRows : ℕ) (harV periodVert : ℤ) (hharV : 0 ≤ harV)
    (hpV : 0 < periodVert) (h : (2 * harV + 1) * periodVert ≤ (nRows : ℤ)) :
    0 ≤ (nRows : ℤ).fdiv 2 + harV * periodVert - periodVert.fdiv 2 ∧
    (nRows : ℤ).fdiv 2 + harV * periodVert + periodVert.fdiv 2 ≤ (nRows : ℤ) := by
  rw [Int.fdiv_eq_ediv _ (by norm_num), Int.fdiv_eq_ediv _ (by norm_num)]
  have hexp : (2 * harV + 1) * periodVert = 2 * (harV * periodVert) + periodVert := by
    ring
  rw [hexp] at h
  have hA : 0 ≤ harV * periodVert := mul_nonneg hharV (le_of_lt hpV)
  generalize harV * periodVert = A at h hA
  omega

theorem ncols_eq_of_rect {β : Type} (m : Mat β) (r c : ℕ) (hrect : IsRect m r c)
    (hr : 0 < r) : ncols m = c := by
  obtain ⟨hlen, hrow⟩ := hrect
  cases m with
  | nil => simp at hlen; omega
  | cons x xs =>
    exact hrow x (List.mem_cons_self x xs)

theorem magQ_eval (q : ℚ) (h : 0 ≤ q) : magQ q = q := abs_of_nonneg h

theorem int_fdiv_two (a : ℤ) : a.fdiv 2 = a / 2 := Int.fdiv_eq_ediv a (by norm_num)

theorem check_eq_true_iff (harV harH : ℤ) (nRows nColumns : ℕ) (pV pH : ℤ) :
    check_harmonic_inside_image harV harH nRows nColumns pV pH = true ↔
      (nRows : ℤ) < (2 * harV + 1) * pV ∨ (nColumns : ℤ) < (2 * harH + 1) * pH := by
  simp only [check_harmonic_inside_image, Bool.or_eq_true, decide_eq_true_eq]
  simp only [gt_iff_lt, ← not_le]
  simp only [half_ineq_iff]

theorem check_eq_intTest (harV harH : ℤ) (nRows nColumns : ℕ) (pV pH : ℤ) :
    check_harmonic_inside_image harV harH nRows nColumns pV pH =
      (decide ((nRows : ℤ) < (2 * harV + 1) * pV) ||
       decide ((nColumns : ℤ) < (2 * harH + 1) * pH)) := by
  rw [Bool.eq_iff_iff, check_eq_true_iff]
  simp

/-- C3: for all integers, the Peak Index Calculator returns exactly
`[nRows//2 + harV*periodVert, nColumns//2 + harH*periodHor]`, with Python
floor division and no rounding. -/
theorem c3_idxPeak_formula (harV harH nRows nColumns periodVert periodHor : ℤ) :
    idxPeak_ij harV harH nRows nColumns periodVert periodHor =
      (nRows.fdiv 2 + harV * periodVert, nColumns.fdiv 2 + harH * periodHor) := rfl

/-- C2: the Range Validator raises exactly when
`(harV + 0.5)*periodVert > nRows/2` or `(harH + 0.5)*periodHor > nColumns/2`
(equality at the boundary does not raise), and when it raises on the
resolved periods inside `extract_harmonic` the extraction aborts with a
hard error and returns no crop. -/
theorem c2_range_validation {α : Type} [Inhabited α] (mag : α → ℚ)
    (fft : Mat α → Mat α) (img : Mat α)
    (periodVert periodHor harV harH searchRegion : ℤ) (isFFT : Bool)
    (nRows nColumns : ℕ) (pV pH : ℤ) :
    (check_harmonic_inside_image harV harH nRows nColumns pV pH = true ↔
      ((harV : ℚ) + 1/2) * (pV : ℚ) > (nRows : ℚ) / 2 ∨
      ((harH : ℚ) + 1/2) * (pH : ℚ) > (nColumns : ℚ) / 2) ∧
    (check_harmonic_inside_image harV harH (nrows img) (ncols img)
        (resolvePeriod periodVert (nrows img)) (resolvePeriod periodHor (ncols img)) = true →
      extract_harmonic mag fft img periodVert periodHor harV harH searchRegion isFFT =
        .error ()) := by
  constructor
  · simp [check_harmonic_inside_image]
  · intro h
    simp only [extract_harmonic]
    rw [h]
    rfl

/-- C2 witness: a concrete out-of-range harmonic request aborts extraction. -/
theorem c2_range_validation_witness :
    extract_harmonic magQ id (zerosM 8 8) 20 20 0 0 1 true = .error () :=
  (c2_range_validation magQ id (zerosM 8 8) 20 20 0 0 1 true 0 0 0 0).2
    (by rw [check_eq_intTest]; rfl)

/-- C10: when validation succeeds for non-negative harmonics and positive
periods, the crop interval lies inside the image on both axes (no silent
slice clipping), the returned crop has exactly `2*(periodVert//2)` rows
each of length `2*(periodHor//2)`, and those equal `periodVert` and
`periodHor` precisely when the periods are even. -/
theorem c10_crop_within_bounds {α : Type} [Inhabited α] (mag : α → ℚ)
    (fft : Mat α → Mat α) (img : Mat α) (nRows nColumns : ℕ)
    (periodVert periodHor harV harH searchRegion : ℤ)
    (hrect : IsRect img nRows nColumns) (hharV : 0 ≤ harV) (hharH : 0 ≤ harH)
    (hpV : 0 < periodVert) (hpH : 0 < periodHor)
    (hchk : check_harmonic_inside_image harV harH nRows nColumns
      periodVert periodHor = false) :
    (0 ≤ (nRows : ℤ).fdiv 2 + harV * periodVert - periodVert.fdiv 2 ∧
      (nRows : ℤ).fdiv 2 + harV * periodVert + periodVert.fdiv 2 ≤ (nRows : ℤ)) ∧
    (0 ≤ (nColumns : ℤ).fdiv 2 + harH * periodHor - periodHor.fdiv 2 ∧
      (nColumns : ℤ).fdiv 2 + harH * periodHor + periodHor.fdiv 2 ≤ (nColumns : ℤ)) ∧
    (extract_harmonic mag fft img periodVert periodHor harV harH searchRegion true).map
        (fun crop => crop.length) = .ok (2 * periodVert.fdiv 2).toNat ∧
    (extract_harmonic mag fft img periodVert periodHor harV harH searchRegion true).map
        (fun crop => decide (∀ row ∈ crop, row.length = (2 * periodHor.fdiv 2).toNat)) =
      .ok true ∧
    (2 * periodVert.fdiv 2 = periodVert ↔ periodVert % 2 = 0) ∧
    (2 * periodHor.fdiv 2 = periodHor ↔ periodHor % 2 = 0) := by
  obtain ⟨hZv, hZh⟩ := (check_eq_false_iff harV harH nRows nColumns periodVert periodHor).mp hchk
  have hBv := crop_bounds nRows harV periodVert hharV hpV hZv
  have hBh := crop_bounds nColumns harH periodHor hharH hpH hZh
  have hnR : 0 < nRows := by
    have h1 : (0:ℤ) < (2 * harV + 1) * periodVert :=
      mul_pos (by omega) hpV
    have h2 : (0:ℤ) < (nRows : ℤ) := lt_of_lt_of_le h1 hZv
    exact_mod_cast h2
  have hlen : img.length = nRows := hrect.1
  have hcols : ncols img = nColumns := ncols_eq_of_rect img nRows nColumns hrect hnR
  have hcols2 : (img.headD []).length = nColumns := hcols
  simp only [int_fdiv_two] at hBv hBh
  refine ⟨?_, ?_, ?_, ?_, ?_, ?_⟩
  · simp only [int_fdiv_two]
    exact hBv
  · simp only [int_fdiv_two]
    exact hBh
  · simp only [extract_harmonic, nrows, ncols, hlen, hcols2,
      resolvePeriod_of_pos _ _ hpV, resolvePeriod_of_pos _ _ hpH, hchk,
      Bool.false_eq_true, if_false, if_true, Except.map, idxPeak_ij,
      List.length_map, int_fdiv_two]
    rw [pySlice_length]
    rw [hlen]
    rw [pyIdx_of_bounds nRows _ (by omega) (by omega),
      pyIdx_of_bounds nRows _ (by omega) (by omega)]
    simp only [Except.ok.injEq]
    omega
  · simp only [extract_harmonic, nrows, ncols, hlen, hcols2,
      resolvePeriod_of_pos _ _ hpV, resolvePeriod_of_pos _ _ hpH, hchk,
      Bool.false_eq_true, if_false, if_true, Except.map, idxPeak_ij, int_fdiv_two]
    congr 1
    rw [decide_eq_true_eq]
    intro row hrow
    obtain ⟨row0, hrow0, hmap⟩ := List.mem_map.mp hrow
    have hrow0img : row0 ∈ img := pySlice_subset img _ _ hrow0
    have hrow0len : row0.length = nColumns := hrect.2 row0 hrow0img
    subst hmap
    rw [pySlice_length, hrow0len]
    rw [pyIdx_of_bounds nColumns _ (by omega) (by omega),
      pyIdx_of_bounds nColumns _ (by omega) (by omega)]
    omega
  · rw [int_fdiv_two]
    omega
  · rw [int_fdiv_two]
    omega

/-- C10 witness: concrete in-bounds crop for harmonic (1,1), periods (2,2),
on an 8×8 image. -/
theorem c10_crop_within_bounds_witness :
    (0 ≤ ((8:ℕ) : ℤ).fdiv 2 + 1 * 2 - (2:ℤ).fdiv 2 ∧
      ((8:ℕ) : ℤ).fdiv 2 + 1 * 2 + (2:ℤ).fdiv 2 ≤ ((8:ℕ) : ℤ)) ∧
    (0 ≤ ((8:ℕ) : ℤ).fdiv 2 + 1 * 2 - (2:ℤ).fdiv 2 ∧
      ((8:ℕ) : ℤ).fdiv 2 + 1 * 2 + (2:ℤ).fdiv 2 ≤ ((8:ℕ) : ℤ)) ∧
    (extract_harmonic magQ id (zerosM 8 8) 2 2 1 1 1 true).map
        (fun crop => crop.length) = .ok (2 * (2:ℤ).fdiv 2).toNat ∧
    (extract_harmonic magQ id (zerosM 8 8) 2 2 1 1 1 true).map
        (fun crop => decide (∀ row ∈ crop, row.length = (2 * (2:ℤ).fdiv 2).toNat)) =
      .ok true ∧
    (2 * (2:ℤ).fdiv 2 = 2 ↔ (2:ℤ) % 2 = 0) ∧
    (2 * (2:ℤ).fdiv 2 = 2 ↔ (2:ℤ) % 2 = 0) :=
  c10_crop_within_bounds magQ id (zerosM 8 8) 8 8 2 2 1 1 1
    (by constructor <;> decide) (by decide) (by decide) (by decide) (by decide)
    (by rw [check_eq_intTest]; rfl)

/-- C1 (amended): for a frequency-domain image, resolved positive periods
and validated non-negative harmonics, `extract_harmonic` returns exactly
the sub-array of rows `[idx0 - periodVert//2, idx0 + periodVert//2)` and
columns `[idx1 - periodHor//2, idx1 + periodHor//2)` around the theoretical
peak `(idx0, idx1)`; its shape is `(2*(periodVert//2), 2*(periodHor//2))`,
which is `(periodVert, periodHor)` only for even periods. -/
theorem c1_crop_at_theoretical_peak {α : Type} [Inhabited α] (mag : α → ℚ)
    (fft : Mat α → Mat α) (img : Mat α) (nRows nColumns : ℕ)
    (periodVert periodHor harV harH searchRegion : ℤ)
    (hrect : IsRect img nRows nColumns) (hharV : 0 ≤ harV) (hharH : 0 ≤ harH)
    (hpV : 0 < periodVert) (hpH : 0 < periodHor)
    (hchk : check_harmonic_inside_image harV harH nRows nColumns
      periodVert periodHor = false) :
    extract_harmonic mag fft img periodVert periodHor harV harH searchRegion true =
      .ok (((img.drop ((nRows : ℤ).fdiv 2 + harV * periodVert - periodVert.fdiv 2).toNat).take
          (2 * periodVert.fdiv 2).toNat).map
        (fun row =>
          (row.drop ((nColumns : ℤ).fdiv 2 + harH * periodHor - periodHor.fdiv 2).toNat).take
            (2 * periodHor.fdiv 2).toNat)) := by
  obtain ⟨hZv, hZh⟩ :=
    (check_eq_false_iff harV harH nRows nColumns periodVert periodHor).mp hchk
  have hBv := crop_bounds nRows harV periodVert hharV hpV hZv
  have hBh := crop_bounds nColumns harH periodHor hharH hpH hZh
  have hnR : 0 < nRows := by
    have h1 : (0:ℤ) < (2 * harV + 1) * periodVert := mul_pos (by omega) hpV
    have h2 : (0:ℤ) < (nRows : ℤ) := lt_of_lt_of_le h1 hZv
    exact_mod_cast h2
  have hlen : img.length = nRows := hrect.1
  have hcols : ncols img = nColumns := ncols_eq_of_rect img nRows nColumns hrect hnR
  have hcols2 : (img.headD []).length = nColumns := hcols
  simp only [int_fdiv_two] at hBv hBh
  simp only [extract_harmonic, nrows, ncols, hlen, hcols2,
    resolvePeriod_of_pos _ _ hpV, resolvePeriod_of_pos _ _ hpH, hchk,
    Bool.false_eq_true, if_false, if_true, idxPeak_ij, int_fdiv_two,
    Except.ok.injEq]
  rw [pySlice_eq_drop_take img _ _ (by omega) (by omega) (by rw [hlen]; omega)]
  have hwidth : ((nRows : ℤ) / 2 + harV * periodVert + periodVert / 2) -
      ((nRows : ℤ) / 2 + harV * periodVert - periodVert / 2) = 2 * (periodVert / 2) := by
    ring
  rw [hwidth]
  apply List.map_congr_left
  intro row hrow
  have hrowimg : row ∈ img :=
    List.drop_subset _ _ (List.take_subset _ _ hrow)
  have hrowlen : row.length = nColumns := hrect.2 row hrowimg
  rw [pySlice_eq_drop_take row _ _ (by omega) (by omega) (by rw [hrowlen]; omega)]
  congr 1
  ring_nf

/-- C1 counterexample: with resolved positive periods (3, 2), an 8×8
frequency-domain image and harmonic (0,0) that passes range validation,
the crop has 2 rows, not periodVert = 3: the claimed shape
(periodVert, periodHor) fails for an odd period. -/
theorem c1_counterexample :
    check_harmonic_inside_image 0 0 8 8 3 2 = false ∧
    extract_harmonic magQ id (zerosM 8 8) 3 2 0 0 1 true =
      .ok [[(0:ℚ), 0], [0, 0]] ∧
    ([[(0:ℚ), 0], [0, 0]] : Mat ℚ).length = 2 ∧ (2 : ℕ) ≠ 3 := by
  refine ⟨by rw [check_eq_intTest]; rfl, ?_, rfl, by norm_num⟩
  simp only [extract_harmonic, check_eq_intTest]
  norm_num
  rfl

/-- C1 witness: even periods (2,2), harmonic (1,1) on a concrete 8×8 image. -/
theorem c1_crop_at_theoretical_peak_witness :
    extract_harmonic magQ id (zerosM 8 8) 2 2 1 1 1 true =
      .ok ((((zerosM 8 8).drop (((8:ℕ) : ℤ).fdiv 2 + 1 * 2 - (2:ℤ).fdiv 2).toNat).take
          (2 * (2:ℤ).fdiv 2).toNat).map
        (fun row =>
          (row.drop (((8:ℕ) : ℤ).fdiv 2 + 1 * 2 - (2:ℤ).fdiv 2).toNat).take
            (2 * (2:ℤ).fdiv 2).toNat)) :=
  c1_crop_at_theoretical_peak magQ id (zerosM 8 8) 8 8 2 2 1 1 1
    (by constructor <;> decide) (by decide) (by decide) (by decide) (by decide)
    (by rw [check_eq_intTest]; rfl)

theorem firstArgmax_none_iff {β : Type} (f : β → ℚ) (l : List β) :
    firstArgmax f l = none ↔ l = [] := by
  cases l with
  | nil => simp [firstArgmax]
  | cons x xs =>
    simp only [firstArgmax]
    rcases hx : firstArgmax f xs with _ | y <;> simp
    split <;> simp

theorem firstArgmax_mem_max {β : Type} (f : β → ℚ) :
    ∀ (l : List β) (z : β), firstArgmax f l = some z → z ∈ l ∧ ∀ y ∈ l, f y ≤ f z := by
  intro l
  induction l with
  | nil => intro z h; simp [firstArgmax] at h
  | cons x xs ih =>
    intro z h
    simp only [firstArgmax] at h
    rcases hx : firstArgmax f xs with _ | y
    · rw [hx] at h
      obtain rfl : x = z := by simpa using h
      have hxs : xs = [] := (firstArgmax_none_iff f xs).mp hx
      subst hxs
      refine ⟨List.mem_singleton.mpr rfl, ?_⟩
      intro y hy
      rw [List.mem_singleton.mp hy]
    · rw [hx] at h
      change (if f x < f y then some y else some x) = some z at h
      obtain ⟨hymem, hymax⟩ := ih y hx
      by_cases hlt : f x < f y
      · rw [if_pos hlt] at h
        obtain rfl : y = z := by simpa using h
        refine ⟨List.mem_cons_of_mem x hymem, ?_⟩
        intro w hw
        rcases List.mem_cons.mp hw with rfl | hwxs
        · exact le_of_lt hlt
        · exact hymax w hwxs
      · rw [if_neg hlt] at h
        obtain rfl : x = z := by simpa using h
        refine ⟨List.mem_cons_self x xs, ?_⟩
        intro w hw
        rcases List.mem_cons.mp hw with rfl | hwxs
        · exact le_refl _
        · exact le_trans (hymax w hwxs) (not_lt.mp hlt)

theorem firstArgmax_cons_top {β : Type} (f : β → ℚ) (x : β) (t : List β)
    (h : ∀ y ∈ t, f y ≤ f x) : firstArgmax f (x :: t) = some x := by
  simp only [firstArgmax]
  rcases hx : firstArgmax f t with _ | y
  · rfl
  · obtain ⟨hy, _⟩ := firstArgmax_mem_max f t y hx
    show (if f x < f y then some y else some x) = some x
    rw [if_neg (not_lt.mpr (h y hy))]

theorem firstArgmax_congr {β : Type} (f g : β → ℚ) :
    ∀ (l : List β), (∀ x ∈ l, f x = g x) → firstArgmax f l = firstArgmax g l := by
  intro l
  induction l with
  | nil => intro _; rfl
  | cons x xs ih =>
    intro h
    have hx : f x = g x := h x (List.mem_cons_self x xs)
    have ht := ih (fun y hy => h y (List.mem_cons_of_mem x hy))
    simp only [firstArgmax, ht]
    rcases hg : firstArgmax g xs with _ | y
    · rfl
    · obtain ⟨hy, _⟩ := firstArgmax_mem_max g xs y hg
      show (if f x < f y then some y else some x) = (if g x < g y then some y else some x)
      rw [hx, h y (List.mem_cons_of_mem x hy)]

theorem firstArgmax_filter {β : Type} (p : β → Bool) (f : β → ℚ) (m : ℚ)
    (Hm : ∀ y, p y = false → f y < m) :
    ∀ (l : List β) (x : β), x ∈ l → p x = true → m ≤ f x →
      firstArgmax f l = firstArgmax f (l.filter p) := by
  intro l
  induction l with
  | nil => intro x hx _ _; simp at hx
  | cons h t ih =>
    intro x hx hpx hmx
    by_cases hph : p h = true
    · rw [List.filter_cons, if_pos hph]
      by_cases hwt : ∃ w ∈ t, p w = true ∧ m ≤ f w
      · obtain ⟨w, hw, hpw, hmw⟩ := hwt
        have heq := ih w hw hpw hmw
        simp only [firstArgmax, heq]
      · push_neg at hwt
        have hmh : m ≤ f h := by
          rcases List.mem_cons.mp hx with rfl | hxt
          · exact hmx
          · exact absurd hmx (not_le.mpr (hwt x hxt hpx))
        have htop : ∀ y ∈ t, f y ≤ f h := by
          intro y hy
          by_cases hpy : p y = true
          · exact le_of_lt (lt_of_lt_of_le (hwt y hy hpy) hmh)
          · exact le_of_lt (lt_of_lt_of_le (Hm y (by simpa using hpy)) hmh)
        have htopf : ∀ y ∈ t.filter p, f y ≤ f h := fun y hy =>
          htop y (List.mem_of_mem_filter hy)
        rw [firstArgmax_cons_top f h t htop, firstArgmax_cons_top f h _ htopf]
    · have hph2 : p h = false := by simpa using hph
      rw [List.filter_cons, if_neg (by simp [hph2])]
      have hxt : x ∈ t := by
        rcases List.mem_cons.mp hx with rfl | hxt
        · rw [hph2] at hpx; cases hpx
        · exact hxt
      have heq := ih x hxt hpx hmx
      rcases hz : firstArgmax f t with _ | z
      · rw [firstArgmax_none_iff] at hz
        subst hz
        simp at hxt
      · obtain ⟨hzt, hzmax⟩ := firstArgmax_mem_max f t z hz
        have hlt : f h < f z :=
          lt_of_lt_of_le (Hm h hph2) (le_trans hmx (hzmax x hxt))
        simp only [firstArgmax, hz, if_pos hlt]
        rw [← hz, heq]

theorem mem_coordsRM (nR nC : ℕ) (c : ℕ × ℕ) :
    c ∈ coordsRM nR nC ↔ c.1 < nR ∧ c.2 < nC := by
  rcases c with ⟨i, j⟩
  simp only [coordsRM, List.mem_flatMap, List.mem_map, List.mem_range, Prod.mk.injEq]
  constructor
  · rintro ⟨a, ha, b, hb, h1, h2⟩
    omega
  · rintro ⟨h1, h2⟩
    exact ⟨i, h1, j, h2, rfl, rfl⟩

/-- C4 (amended): whenever the search window lies fully inside the image
and some pixel of the window has positive magnitude, the Peak Locator
returns exactly the row-major-first maximum-magnitude pixel of the square
window (the spec's Peak Locator); without those provisos the masked argmax
can fall outside the window. -/
theorem c4_peak_locator_refines_spec {α : Type} [Inhabited α] (mag : α → ℚ)
    (imgFFT : Mat α) (harV harH periodVert periodHor searchRegion : ℤ) (w : ℕ × ℕ)
    (hr0 : 0 ≤ (idxPeak_ij harV harH (nrows imgFFT) (ncols imgFFT) periodVert periodHor).1
      - searchRegion)
    (hr1 : (idxPeak_ij harV harH (nrows imgFFT) (ncols imgFFT) periodVert periodHor).1
      + searchRegion ≤ (nrows imgFFT : ℤ))
    (hc0 : 0 ≤ (idxPeak_ij harV harH (nrows imgFFT) (ncols imgFFT) periodVert periodHor).2
      - searchRegion)
    (hc1 : (idxPeak_ij harV harH (nrows imgFFT) (ncols imgFFT) periodVert periodHor).2
      + searchRegion ≤ (ncols imgFFT : ℤ))
    (hw1 : (idxPeak_ij harV harH (nrows imgFFT) (ncols imgFFT) periodVert periodHor).1
      - searchRegion ≤ (w.1 : ℤ))
    (hw2 : (w.1 : ℤ) < (idxPeak_ij harV harH (nrows imgFFT) (ncols imgFFT) periodVert periodHor).1
      + searchRegion)
    (hw3 : (idxPeak_ij harV harH (nrows imgFFT) (ncols imgFFT) periodVert periodHor).2
      - searchRegion ≤ (w.2 : ℤ))
    (hw4 : (w.2 : ℤ) < (idxPeak_ij harV harH (nrows imgFFT) (ncols imgFFT) periodVert periodHor).2
      + searchRegion)
    (hpos : 0 < mag (mget imgFFT w.1 w.2)) :
    idxPeak_ij_exp mag imgFFT harV harH periodVert periodHor searchRegion =
      peakLocatorSpec mag imgFFT harV harH periodVert periodHor searchRegion := by
  simp only [idxPeak_ij_exp, peakLocatorSpec]
  rw [pyIdx_of_bounds _ _ hr0 (by omega), pyIdx_of_bounds _ _ (by omega) hr1,
    pyIdx_of_bounds _ _ hc0 (by omega), pyIdx_of_bounds _ _ (by omega) hc1]
  refine congrArg (fun o => Option.getD o (0, 0)) ?_
  simp only [mul_ite, mul_one, mul_zero]
  refine (firstArgmax_filter _ _ (mag (mget imgFFT w.1 w.2)) ?_ _ w ?_ ?_ ?_).trans
    (firstArgmax_congr _ _ _ ?_)
  · intro y hy
    have hnz := of_decide_eq_false hy
    split
    next hN =>
      rcases hN with ⟨a1, a2, a3, a4⟩
      exact absurd ⟨by omega, by omega, by omega, by omega⟩ hnz
    next hN => exact hpos
  · exact (mem_coordsRM _ _ w).mpr ⟨by omega, by omega⟩
  · rw [decide_eq_true_eq]
    exact ⟨hw1, hw2, hw3, hw4⟩
  · split
    next hN => exact le_refl _
    next hN => exact absurd ⟨by omega, by omega, by omega, by omega⟩ hN
  · intro c hc
    have hzc := of_decide_eq_true (List.mem_filter.mp hc).2
    rcases hzc with ⟨b1, b2, b3, b4⟩
    split
    next hN => rfl
    next hN => exact absurd ⟨by omega, by omega, by omega, by omega⟩ hN

/-- C4 counterexample: on an all-zero 4×4 image with periods (2,2),
harmonic (0,0) and search radius 1, the window is rows and columns [1,3),
yet the code returns (0,0) — outside the window — while the first
maximum-magnitude pixel of the window in row-major order is (1,1). -/
theorem c4_counterexample :
    idxPeak_ij_exp magQ (zerosM 4 4) 0 0 2 2 1 = (0, 0) ∧
    peakLocatorSpec magQ (zerosM 4 4) 0 0 2 2 1 = (1, 1) ∧
    ((0, 0) : ℕ × ℕ) ≠ (1, 1) := by
  refine ⟨?_, ?_, by decide⟩
  · norm_num [idxPeak_ij_exp, idxPeak_ij, coordsRM, firstArgmax, mget, pyIdx, magQ,
      zerosM, matConst, nrows, ncols, List.range_succ]
  · norm_num [peakLocatorSpec, idxPeak_ij, coordsRM, firstArgmax, mget, magQ,
      zerosM, matConst, nrows, ncols, List.range_succ, int_fdiv_two]

/-- C4 witness: with a positive-magnitude pixel in the in-bounds window the
code's detected peak and the spec's Peak Locator agree. -/
theorem c4_peak_locator_refines_spec_witness :
    idxPeak_ij_exp magQ peakMat4 0 0 2 2 1 = peakLocatorSpec magQ peakMat4 0 0 2 2 1 :=
  c4_peak_locator_refines_spec magQ peakMat4 0 0 2 2 1 (2, 2)
    (by decide) (by decide) (by decide) (by decide)
    (by decide) (by decide) (by decide) (by decide)
    (by norm_num [magQ, mget, peakMat4])

theorem extract_resolveV {α : Type} [Inhabited α] (mag : α → ℚ) (fft : Mat α → Mat α)
    (img : Mat α) (L : ℕ) (periodVert periodHor harV harH searchRegion : ℤ)
    (isFFT : Bool) (hpv : periodVert ≤ 0) (hL : nrows img = L) :
    extract_harmonic mag fft img periodVert periodHor harV harH searchRegion isFFT =
      extract_harmonic mag fft img (L : ℤ) periodHor harV harH searchRegion isFFT := by
  simp only [extract_harmonic, hL, resolvePeriod_of_nonpos _ _ hpv, resolvePeriod_self_coe]

theorem extract_resolveH {α : Type} [Inhabited α] (mag : α → ℚ) (fft : Mat α → Mat α)
    (img : Mat α) (C : ℕ) (periodVert periodHor harV harH searchRegion : ℤ)
    (isFFT : Bool) (hph : periodHor ≤ 0) (hC : ncols img = C) :
    extract_harmonic mag fft img periodVert periodHor harV harH searchRegion isFFT =
      extract_harmonic mag fft img periodVert (C : ℤ) harV harH searchRegion isFFT := by
  simp only [extract_harmonic, hC, resolvePeriod_of_nonpos _ _ hph, resolvePeriod_self_coe]

theorem exp_harm_resolveV {α : Type} [Inhabited α] (mag : α → ℚ) (fft : Mat α → Mat α)
    (img : Mat α) (L : ℕ) (periodVert periodHor harV harH searchRegion : ℤ)
    (isFFT : Bool) (hpv : periodVert ≤ 0) (hL : nrows img = L) :
    exp_harm_period mag fft img periodVert periodHor harV harH searchRegion isFFT =
      exp_harm_period mag fft img (L : ℤ) periodHor harV harH searchRegion isFFT := by
  simp only [exp_harm_period, hL, resolvePeriod_of_nonpos _ _ hpv, resolvePeriod_self_coe]

theorem exp_harm_resolveH {α : Type} [Inhabited α] (mag : α → ℚ) (fft : Mat α → Mat α)
    (img : Mat α) (C : ℕ) (periodVert periodHor harV harH searchRegion : ℤ)
    (isFFT : Bool) (hph : periodHor ≤ 0) (hC : ncols img = C) :
    exp_harm_period mag fft img periodVert periodHor harV harH searchRegion isFFT =
      exp_harm_period mag fft img periodVert (C : ℤ) harV harH searchRegion isFFT := by
  simp only [exp_harm_period, hC, resolvePeriod_of_nonpos _ _ hph, resolvePeriod_self_coe]

theorem sg_resolveV {α : Type} [Inhabited α] (mag : α → ℚ) (isFin : α → Bool)
    (fft ifft : Mat α → Mat α) (img : Mat α) (L : ℕ)
    (periodVert periodHor searchRegion : ℤ)
    (hpv : periodVert ≤ 0) (hL : nrows (fft img) = L) :
    single_grating_harmonic_images mag isFin fft ifft img periodVert periodHor searchRegion =
      single_grating_harmonic_images mag isFin fft ifft img (L : ℤ) periodHor searchRegion := by
  simp only [single_grating_harmonic_images]
  rw [extract_resolveV mag fft (fft img) L periodVert periodHor 0 0 searchRegion true hpv hL,
    extract_resolveV mag fft (fft img) L periodVert periodHor 0 1 searchRegion true hpv hL,
    extract_resolveV mag fft (fft img) L periodVert periodHor 1 0 searchRegion true hpv hL]

theorem sg_resolveH {α : Type} [Inhabited α] (mag : α → ℚ) (isFin : α → Bool)
    (fft ifft : Mat α → Mat α) (img : Mat α) (C : ℕ)
    (periodVert periodHor searchRegion : ℤ)
    (hph : periodHor ≤ 0) (hC : ncols (fft img) = C) :
    single_grating_harmonic_images mag isFin fft ifft img periodVert periodHor searchRegion =
      single_grating_harmonic_images mag isFin fft ifft img periodVert (C : ℤ) searchRegion := by
  simp only [single_grating_harmonic_images]
  rw [extract_resolveH mag fft (fft img) C periodVert periodHor 0 0 searchRegion true hph hC,
    extract_resolveH mag fft (fft img) C periodVert periodHor 0 1 searchRegion true hph hC,
    extract_resolveH mag fft (fft img) C periodVert periodHor 1 0 searchRegion true hph hC]

theorem s2d_resolveV {α : Type} [Inhabited α] [One α] (mag angleF : α → ℚ)
    (isFin : α → Bool) (unwrap : Mat ℚ → Mat ℚ) (fft ifft : Mat α → Mat α)
    (img : Mat α) (img_ref : Option (Mat α)) (L : ℕ)
    (periodVert periodHor unwrapFlag : ℤ)
    (hpv : periodVert ≤ 0) (hL : nrows (fft img) = L)
    (hLr : ∀ r, img_ref = some r → nrows (fft r) = L) :
    single_2Dgrating_analyses mag angleF isFin unwrap fft ifft img img_ref
        periodVert periodHor unwrapFlag =
      single_2Dgrating_analyses mag angleF isFin unwrap fft ifft img img_ref
        (L : ℤ) periodHor unwrapFlag := by
  cases img_ref with
  | none =>
    simp only [single_2Dgrating_analyses]
    rw [sg_resolveV mag isFin fft ifft img L periodVert periodHor 10 hpv hL]
  | some r =>
    simp only [single_2Dgrating_analyses]
    rw [sg_resolveV mag isFin fft ifft img L periodVert periodHor 10 hpv hL,
      sg_resolveV mag isFin fft ifft r L periodVert periodHor 10 hpv (hLr r rfl)]

theorem s2d_resolveH {α : Type} [Inhabited α] [One α] (mag angleF : α → ℚ)
    (isFin : α → Bool) (unwrap : Mat ℚ → Mat ℚ) (fft ifft : Mat α → Mat α)
    (img : Mat α) (img_ref : Option (Mat α)) (C : ℕ)
    (periodVert periodHor unwrapFlag : ℤ)
    (hph : periodHor ≤ 0) (hC : ncols (fft img) = C)
    (hCr : ∀ r, img_ref = some r → ncols (fft r) = C) :
    single_2Dgrating_analyses mag angleF isFin unwrap fft ifft img img_ref
        periodVert periodHor unwrapFlag =
      single_2Dgrating_analyses mag angleF isFin unwrap fft ifft img img_ref
        periodVert (C : ℤ) unwrapFlag := by
  cases img_ref with
  | none =>
    simp only [single_2Dgrating_analyses]
    rw [sg_resolveH mag isFin fft ifft img C periodVert periodHor 10 hph hC]
  | some r =>
    simp only [single_2Dgrating_analyses]
    rw [sg_resolveH mag isFin fft ifft img C periodVert periodHor 10 hph hC,
      sg_resolveH mag isFin fft ifft r C periodVert periodHor 10 hph (hCr r rfl)]

/-- C5 (amended): the 1D-grating substitution law — a non-positive
`periodVert` behaves as `periodVert = nRows`, symmetrically for
`periodHor` — holds for `extract_harmonic`, `exp_harm_period`,
`single_grating_harmonic_images` and `single_2Dgrating_analyses`
(given the shape-preservation contract of the transform collaborator),
but `visib_1st_harmonics` performs no such substitution. -/
theorem c5_period_default_substitution {α : Type} [Inhabited α] [One α]
    (mag angleF : α → ℚ) (isFin : α → Bool) (unwrap : Mat ℚ → Mat ℚ)
    (fft ifft : Mat α → Mat α) (img : Mat α) (img_ref : Option (Mat α))
    (periodVert periodHor harV harH searchRegion unwrapFlag : ℤ) (isFFT : Bool)
    (hfftR : nrows (fft img) = nrows img) (hfftC : ncols (fft img) = ncols img)
    (hrefR : ∀ r, img_ref = some r → nrows (fft r) = nrows img)
    (hrefC : ∀ r, img_ref = some r → ncols (fft r) = ncols img) :
    (periodVert ≤ 0 →
      extract_harmonic mag fft img periodVert periodHor harV harH searchRegion isFFT =
        extract_harmonic mag fft img (nrows img : ℤ) periodHor harV harH searchRegion isFFT ∧
      exp_harm_period mag fft img periodVert periodHor harV harH searchRegion isFFT =
        exp_harm_period mag fft img (nrows img : ℤ) periodHor harV harH searchRegion isFFT ∧
      single_grating_harmonic_images mag isFin fft ifft img periodVert periodHor
          searchRegion =
        single_grating_harmonic_images mag isFin fft ifft img (nrows img : ℤ) periodHor
          searchRegion ∧
      single_2Dgrating_analyses mag angleF isFin unwrap fft ifft img img_ref
          periodVert periodHor unwrapFlag =
        single_2Dgrating_analyses mag angleF isFin unwrap fft ifft img img_ref
          (nrows img : ℤ) periodHor unwrapFlag) ∧
    (periodHor ≤ 0 →
      extract_harmonic mag fft img periodVert periodHor harV harH searchRegion isFFT =
        extract_harmonic mag fft img periodVert (ncols img : ℤ) harV harH searchRegion isFFT ∧
      exp_harm_period mag fft img periodVert periodHor harV harH searchRegion isFFT =
        exp_harm_period mag fft img periodVert (ncols img : ℤ) harV harH searchRegion isFFT ∧
      single_grating_harmonic_images mag isFin fft ifft img periodVert periodHor
          searchRegion =
        single_grating_harmonic_images mag isFin fft ifft img periodVert (ncols img : ℤ)
          searchRegion ∧
      single_2Dgrating_analyses mag angleF isFin unwrap fft ifft img img_ref
          periodVert periodHor unwrapFlag =
        single_2Dgrating_analyses mag angleF isFin unwrap fft ifft img img_ref
          periodVert (ncols img : ℤ) unwrapFlag) := by
  constructor
  · intro hpv
    exact ⟨extract_resolveV mag fft img (nrows img) periodVert periodHor harV harH
        searchRegion isFFT hpv rfl,
      exp_harm_resolveV mag fft img (nrows img) periodVert periodHor harV harH
        searchRegion isFFT hpv rfl,
      sg_resolveV mag isFin fft ifft img (nrows img) periodVert periodHor
        searchRegion hpv hfftR,
      s2d_resolveV mag angleF isFin unwrap fft ifft img img_ref (nrows img)
        periodVert periodHor unwrapFlag hpv hfftR hrefR⟩
  · intro hph
    exact ⟨extract_resolveH mag fft img (ncols img) periodVert periodHor harV harH
        searchRegion isFFT hph rfl,
      exp_harm_resolveH mag fft img (ncols img) periodVert periodHor harV harH
        searchRegion isFFT hph rfl,
      sg_resolveH mag isFin fft ifft img (ncols img) periodVert periodHor
        searchRegion hph hfftC,
      s2d_resolveH mag angleF isFin unwrap fft ifft img img_ref (ncols img)
        periodVert periodHor unwrapFlag hph hfftC hrefC⟩

/-- C5 counterexample: `visib_1st_harmonics` does not substitute the image
extent for a non-positive period: on a 4-row image, `periodVert = 0` and
`periodVert = 4` give different visibilities. -/
theorem c5_counterexample :
    nrows (zerosM 4 4) = 4 ∧
    visib_1st_harmonics magQ fftPeak4 (zerosM 4 4) 0 2 1 ≠
      visib_1st_harmonics magQ fftPeak4 (zerosM 4 4) ((4 : ℕ) : ℤ) 2 1 := by
  refine ⟨rfl, ?_⟩
  have h1 : visib_1st_harmonics magQ fftPeak4 (zerosM 4 4) 0 2 1 = (2, 0) := by
    simp only [visib_1st_harmonics, idxPeak_ij_exp, idxPeak_ij, nrows, ncols,
      fftPeak4, peakMat4]
    norm_num [pyIdx, int_fdiv_two, coordsRM, List.range_succ, firstArgmax, mget, magQ_eval]
  have h2 : visib_1st_harmonics magQ fftPeak4 (zerosM 4 4) ((4 : ℕ) : ℤ) 2 1 = (0, 0) := by
    simp only [visib_1st_harmonics, idxPeak_ij_exp, idxPeak_ij, nrows, ncols,
      fftPeak4, peakMat4]
    norm_num [pyIdx, int_fdiv_two, coordsRM, List.range_succ, firstArgmax, mget, magQ_eval]
  rw [h1, h2]
  simp only [ne_eq, Prod.mk.injEq, not_and]
  intro h
  norm_num at h

/-- C5 witness: the substitution law at a concrete instance. -/
theorem c5_period_default_substitution_witness :
    extract_harmonic magQ fftPeak4 (zerosM 4 4) 0 2 0 0 1 true =
      extract_harmonic magQ fftPeak4 (zerosM 4 4) ((4 : ℕ) : ℤ) 2 0 0 1 true :=
  ((c5_period_default_substitution magQ (fun _ => 0) (fun _ => true) id fftPeak4 id
    (zerosM 4 4) none 0 2 0 0 1 0 true rfl rfl (fun r hr => by cases hr)
    (fun r hr => by cases hr)).1 (by decide)).1

theorem zipWith_replicate_right {α β γ : Type} (f : α → β → γ) (e : β) :
    ∀ (l : List α) (c : ℕ), l.length = c →
      List.zipWith f l (List.replicate c e) = l.map (fun a => f a e) := by
  intro l
  induction l with
  | nil => intro c _; simp
  | cons x xs ih =>
    intro c hc
    cases c with
    | zero => simp at hc
    | succ c2 =>
      simp only [List.replicate, List.zipWith_cons_cons, List.map_cons]
      rw [ih c2 (by simpa using hc)]

theorem matZipWith_matConst {α β γ : Type} (f : α → β → γ) (A : Mat α) (e : β)
    (r c : ℕ) (h1 : A.length = r) (h2 : ∀ row ∈ A, row.length = c) :
    matZipWith f A (matConst r c e) = matMap (fun a => f a e) A := by
  subst h1
  unfold matZipWith matConst matMap
  induction A with
  | nil => simp
  | cons row A2 ih =>
    simp only [List.length_cons, List.replicate, List.zipWith_cons_cons, List.map_cons]
    rw [zipWith_replicate_right f e row c (h2 row (List.mem_cons_self row A2)),
      ih (fun w hw => h2 w (List.mem_cons_of_mem row hw))]

theorem matAll_true {α : Type} (m : Mat α) : matAll (fun _ => true) m = true := by
  simp [matAll, List.all_eq_true]

/- Concrete extraction evaluations used by witnesses. -/

theorem extract_deg6_00 :
    extract_harmonic magQ fftDeg6 degMat6 2 2 0 0 1 true = .ok [[0, 0], [0, 0]] := by
  simp only [extract_harmonic, check_eq_intTest]
  norm_num
  rfl

theorem extract_deg6_01 :
    extract_harmonic magQ fftDeg6 degMat6 2 2 0 1 1 true = .ok [[99, 0], [0, 0]] := by
  simp only [extract_harmonic, check_eq_intTest]
  norm_num
  rfl

theorem extract_deg6_10 :
    extract_harmonic magQ fftDeg6 degMat6 2 2 1 0 1 true = .ok [[0, 0], [0, 0]] := by
  simp only [extract_harmonic, check_eq_intTest]
  norm_num
  rfl

theorem extract_zeros6_00 :
    extract_harmonic magQ id (zerosM 6 6) 2 2 0 0 10 true = .ok [[0, 0], [0, 0]] := by
  simp only [extract_harmonic, check_eq_intTest]
  norm_num
  rfl

theorem extract_zeros6_01 :
    extract_harmonic magQ id (zerosM 6 6) 2 2 0 1 10 true = .ok [[0, 0], [0, 0]] := by
  simp only [extract_harmonic, check_eq_intTest]
  norm_num
  rfl

theorem extract_zeros6_10 :
    extract_harmonic magQ id (zerosM 6 6) 2 2 1 0 10 true = .ok [[0, 0], [0, 0]] := by
  simp only [extract_harmonic, check_eq_intTest]
  norm_num
  rfl

theorem sg_zeros6 :
    single_grating_harmonic_images magQ (fun _ => true) id id (zerosM 6 6) 2 2 10 =
      .ok ([[0, 0], [0, 0]], [[0, 0], [0, 0]], [[0, 0], [0, 0]]) := by
  simp only [single_grating_harmonic_images, id_eq, extract_zeros6_00,
    extract_zeros6_01, extract_zeros6_10, matAll_true, if_true]

/-- C6: in the single-grating harmonic set the (0,0) crop is always
inverse-transformed, while each of the (0,1) and (1,0) crops is
inverse-transformed exactly when all of its values are finite, and is
otherwise returned unchanged. -/
theorem c6_degenerate_passthrough {α : Type} [Inhabited α] (mag : α → ℚ)
    (isFin : α → Bool) (fft ifft : Mat α → Mat α) (img : Mat α)
    (periodVert periodHor searchRegion : ℤ) (c00 c01 c10 : Mat α)
    (h00 : extract_harmonic mag fft (fft img) periodVert periodHor 0 0 searchRegion true =
      .ok c00)
    (h01 : extract_harmonic mag fft (fft img) periodVert periodHor 0 1 searchRegion true =
      .ok c01)
    (h10 : extract_harmonic mag fft (fft img) periodVert periodHor 1 0 searchRegion true =
      .ok c10) :
    single_grating_harmonic_images mag isFin fft ifft img periodVert periodHor
        searchRegion =
      .ok (ifft c00,
        if matAll isFin c01 then ifft c01 else c01,
        if matAll isFin c10 then ifft c10 else c10) := by
  simp only [single_grating_harmonic_images, h00, h01, h10]

/-- C6 witness: a crop holding the non-finite marker 99 is passed through
unchanged while the finite crops are inverse-transformed. -/
theorem c6_degenerate_passthrough_witness :
    single_grating_harmonic_images magQ isFin99 fftDeg6 incMat (zerosM 6 6) 2 2 1 =
      .ok (incMat [[0, 0], [0, 0]], [[99, 0], [0, 0]], incMat [[0, 0], [0, 0]]) := by
  have h := c6_degenerate_passthrough magQ isFin99 fftDeg6 incMat (zerosM 6 6) 2 2 1
    [[0, 0], [0, 0]] [[99, 0], [0, 0]] [[0, 0], [0, 0]]
    extract_deg6_00 extract_deg6_01 extract_deg6_10
  rw [h]
  norm_num [matAll, isFin99]

/-- C7: with a reference image, the two-dimensional grating analysis
returns the ordered 7-tuple (int00, int01, int10, darkField01,
darkField10, arg01, arg10) with int = |h|/|r| element-wise, darkFields the
ratios to int00, arg the element-wise angle differences, unwrapped exactly
when the unwrap flag equals 1. -/
theorem c7_analysis_formulas {α : Type} [Inhabited α] [One α] (mag angleF : α → ℚ)
    (isFin : α → Bool) (unwrap : Mat ℚ → Mat ℚ) (fft ifft : Mat α → Mat α)
    (img img_ref : Mat α) (periodVert periodHor unwrapFlag : ℤ)
    (h00 h01 h10 r00 r01 r10 : Mat α)
    (hs : single_grating_harmonic_images mag isFin fft ifft img periodVert periodHor 10 =
      .ok (h00, h01, h10))
    (hr : single_grating_harmonic_images mag isFin fft ifft img_ref periodVert periodHor 10 =
      .ok (r00, r01, r10)) :
    single_2Dgrating_analyses mag angleF isFin unwrap fft ifft img (some img_ref)
        periodVert periodHor unwrapFlag =
      .ok ⟨matZipWith (fun a b => mag a / mag b) h00 r00,
        matZipWith (fun a b => mag a / mag b) h01 r01,
        matZipWith (fun a b => mag a / mag b) h10 r10,
        matZipWith (fun a b => a / b) (matZipWith (fun a b => mag a / mag b) h01 r01)
          (matZipWith (fun a b => mag a / mag b) h00 r00),
        matZipWith (fun a b => a / b) (matZipWith (fun a b => mag a / mag b) h10 r10)
          (matZipWith (fun a b => mag a / mag b) h00 r00),
        if unwrapFlag = 1 then unwrap (matZipWith (fun a b => angleF a - angleF b) h01 r01)
          else matZipWith (fun a b => angleF a - angleF b) h01 r01,
        if unwrapFlag = 1 then unwrap (matZipWith (fun a b => angleF a - angleF b) h10 r10)
          else matZipWith (fun a b => angleF a - angleF b) h10 r10⟩ := by
  simp only [single_2Dgrating_analyses, hs, hr]

/-- C7 witness: the formulas at a concrete sample/reference pair. -/
theorem c7_analysis_formulas_witness :
    single_2Dgrating_analyses magQ (fun _ => (0 : ℚ)) (fun _ => true) id id id
        (zerosM 6 6) (some (zerosM 6 6)) 2 2 0 =
      .ok ⟨matZipWith (fun a b => magQ a / magQ b) [[0, 0], [0, 0]] [[0, 0], [0, 0]],
        matZipWith (fun a b => magQ a / magQ b) [[0, 0], [0, 0]] [[0, 0], [0, 0]],
        matZipWith (fun a b => magQ a / magQ b) [[0, 0], [0, 0]] [[0, 0], [0, 0]],
        matZipWith (fun a b => a / b)
          (matZipWith (fun a b => magQ a / magQ b) [[0, 0], [0, 0]] [[0, 0], [0, 0]])
          (matZipWith (fun a b => magQ a / magQ b) [[0, 0], [0, 0]] [[0, 0], [0, 0]]),
        matZipWith (fun a b => a / b)
          (matZipWith (fun a b => magQ a / magQ b) [[0, 0], [0, 0]] [[0, 0], [0, 0]])
          (matZipWith (fun a b => magQ a / magQ b) [[0, 0], [0, 0]] [[0, 0], [0, 0]]),
        matZipWith (fun a b => (fun _ => (0 : ℚ)) a - (fun _ => (0 : ℚ)) b)
          [[0, 0], [0, 0]] [[0, 0], [0, 0]],
        matZipWith (fun a b => (fun _ => (0 : ℚ)) a - (fun _ => (0 : ℚ)) b)
          [[0, 0], [0, 0]] [[0, 0], [0, 0]]⟩ := by
  have h := c7_analysis_formulas magQ (fun _ => (0 : ℚ)) (fun _ => true) id id id
    (zerosM 6 6) (zerosM 6 6) 2 2 0
    [[0, 0], [0, 0]] [[0, 0], [0, 0]] [[0, 0], [0, 0]]
    [[0, 0], [0, 0]] [[0, 0], [0, 0]] [[0, 0], [0, 0]] sg_zeros6 sg_zeros6
  rw [h]
  norm_num
  rfl

/-- C8: the Visibility Estimator equals the pair
`(2*|peak10|/|peak00|, 2*|peak01|/|peak00|)` where each peak magnitude is
read directly from the transformed image at the DETECTED location of the
corresponding harmonic, without cropping and with no period resolution. -/
theorem c8_visibility_formula {α : Type} [Inhabited α] (mag : α → ℚ)
    (fft : Mat α → Mat α) (img : Mat α) (periodVert periodHor searchRegion : ℤ) :
    visib_1st_harmonics mag fft img periodVert periodHor searchRegion =
      (2 * mag (mget (fft img)
            (idxPeak_ij_exp mag (fft img) 1 0 periodVert periodHor searchRegion).1
            (idxPeak_ij_exp mag (fft img) 1 0 periodVert periodHor searchRegion).2) /
          mag (mget (fft img)
            (idxPeak_ij_exp mag (fft img) 0 0 periodVert periodHor searchRegion).1
            (idxPeak_ij_exp mag (fft img) 0 0 periodVert periodHor searchRegion).2),
        2 * mag (mget (fft img)
            (idxPeak_ij_exp mag (fft img) 0 1 periodVert periodHor searchRegion).1
            (idxPeak_ij_exp mag (fft img) 0 1 periodVert periodHor searchRegion).2) /
          mag (mget (fft img)
            (idxPeak_ij_exp mag (fft img) 0 0 periodVert periodHor searchRegion).1
            (idxPeak_ij_exp mag (fft img) 0 0 periodVert periodHor searchRegion).2)) := rfl

/-- C9: without a reference image the analysis behaves as if all three
reference harmonics were an all-ones array of the shape of h00: the
intensity maps degrade to |h00|, |h01|, |h10| and (before unwrapping, flag
off) the phase maps to angle(h01), angle(h10). -/
theorem c9_default_reference {α : Type} [Inhabited α] [One α] (mag angleF : α → ℚ)
    (isFin : α → Bool) (unwrap : Mat ℚ → Mat ℚ) (fft ifft : Mat α → Mat α)
    (img : Mat α) (periodVert periodHor : ℤ) (h00 h01 h10 : Mat α) (r c : ℕ)
    (hs : single_grating_harmonic_images mag isFin fft ifft img periodVert periodHor 10 =
      .ok (h00, h01, h10))
    (hr00 : IsRect h00 r c) (hr01 : IsRect h01 r c) (hr10 : IsRect h10 r c)
    (hone : mag 1 = 1) (hang : angleF 1 = 0) :
    single_2Dgrating_analyses mag angleF isFin unwrap fft ifft img none
        periodVert periodHor 0 =
      .ok ⟨matMap (fun a => mag a) h00,
        matMap (fun a => mag a) h01,
        matMap (fun a => mag a) h10,
        matZipWith (fun a b => a / b) (matMap (fun a => mag a) h01)
          (matMap (fun a => mag a) h00),
        matZipWith (fun a b => a / b) (matMap (fun a => mag a) h10)
          (matMap (fun a => mag a) h00),
        matMap (fun a => angleF a) h01,
        matMap (fun a => angleF a) h10⟩ := by
  have hC00 : ∀ row ∈ h00, row.length = ncols h00 := by
    intro row hrow
    rcases Nat.eq_zero_or_pos r with hr0 | hrpos
    · subst hr0
      have : h00 = [] := List.length_eq_zero.mp hr00.1
      subst this
      simp at hrow
    · rw [hr00.2 row hrow, ncols_eq_of_rect h00 r c hr00 hrpos]
  have hC01 : ∀ row ∈ h01, row.length = ncols h00 := by
    intro row hrow
    rcases Nat.eq_zero_or_pos r with hr0 | hrpos
    · subst hr0
      have : h01 = [] := List.length_eq_zero.mp hr01.1
      subst this
      simp at hrow
    · rw [hr01.2 row hrow, ncols_eq_of_rect h00 r c hr00 hrpos]
  have hC10 : ∀ row ∈ h10, row.length = ncols h00 := by
    intro row hrow
    rcases Nat.eq_zero_or_pos r with hr0 | hrpos
    · subst hr0
      have : h10 = [] := List.length_eq_zero.mp hr10.1
      subst this
      simp at hrow
    · rw [hr10.2 row hrow, ncols_eq_of_rect h00 r c hr00 hrpos]
  have hl01 : h01.length = nrows h00 := by
    rw [hr01.1]
    exact hr00.1.symm
  have hl10 : h10.length = nrows h00 := by
    rw [hr10.1]
    exact hr00.1.symm
  simp only [single_2Dgrating_analyses, hs]
  rw [matZipWith_matConst (fun a b => mag a / mag b) h00 1 (nrows h00) (ncols h00) rfl hC00,
    matZipWith_matConst (fun a b => mag a / mag b) h01 1 (nrows h00) (ncols h00) hl01 hC01,
    matZipWith_matConst (fun a b => mag a / mag b) h10 1 (nrows h00) (ncols h00) hl10 hC10,
    matZipWith_matConst (fun a b => angleF a - angleF b) h01 1 (nrows h00) (ncols h00)
      hl01 hC01,
    matZipWith_matConst (fun a b => angleF a - angleF b) h10 1 (nrows h00) (ncols h00)
      hl10 hC10]
  simp only [hone, hang, div_one, sub_zero]
  norm_num

/-- C9 witness: the default-reference degradation at a concrete input. -/
theorem c9_default_reference_witness :
    single_2Dgrating_analyses magQ (fun _ => (0 : ℚ)) (fun _ => true) id id id
        (zerosM 6 6) none 2 2 0 =
      .ok ⟨matMap (fun a => magQ a) [[0, 0], [0, 0]],
        matMap (fun a => magQ a) [[0, 0], [0, 0]],
        matMap (fun a => magQ a) [[0, 0], [0, 0]],
        matZipWith (fun a b => a / b) (matMap (fun a => magQ a) [[0, 0], [0, 0]])
          (matMap (fun a => magQ a) [[0, 0], [0, 0]]),
        matZipWith (fun a b => a / b) (matMap (fun a => magQ a) [[0, 0], [0, 0]])
          (matMap (fun a => magQ a) [[0, 0], [0, 0]]),
        matMap (fun a => (fun _ => (0 : ℚ)) a) [[0, 0], [0, 0]],
        matMap (fun a => (fun _ => (0 : ℚ)) a) [[0, 0], [0, 0]]⟩ :=
  c9_default_reference magQ (fun _ => (0 : ℚ)) (fun _ => true) id id id
    (zerosM 6 6) 2 2 [[0, 0], [0, 0]] [[0, 0], [0, 0]] [[0, 0], [0, 0]] 2 2
    sg_zeros6 (by constructor <;> decide) (by constructor <;> decide)
    (by constructor <;> decide) (by norm_num [magQ]) rfl
